import Mathlib

set_option maxHeartbeats 1000000

/-! Verification of the ollama-commit extension (src/extension.ts).

Text is modelled at the character level: a JS string is a `List Char`.
The stream accumulator (the data/end handlers of `generateCommitMessage`),
the message cleanup, the prompt rendering and the command orchestration are
transcribed below; `JSON.parse` is an external runtime function, so the
accumulator is parameterised by `parse : Str → Option Rec`, constrained in
the theorems exactly where the repository relies on properties of JSON
(records parse, proper prefixes of a record do not). -/

namespace OllamaCommit

/-- A JS string at the character level. -/
abbrev Str := List Char

/-- Whitespace recognised by the model of JS `String.prototype.trim`. -/
def isWsChar (c : Char) : Bool := c = ' ' || c = '\t' || c = '\n' || c = '\r'

/-- Model of JS `String.prototype.trim` (both ends). -/
def trim (s : Str) : Str := ((s.dropWhile isWsChar).reverse.dropWhile isWsChar).reverse

/-- Model of JS `split` with separator a single newline: `"".split` gives `[""]`,
a trailing separator yields a trailing empty piece. -/
def splitNl : Str → List Str
  | [] => [[]]
  | c :: cs =>
    if c = '\n' then [] :: splitNl cs
    else (c :: (splitNl cs).headI) :: (splitNl cs).tail

/-- The fields of an `OllamaGenerateResponse` record that the extension reads:
`response` (may be absent, hence `Option`) and `done`.  The remaining fields of
the interface (model, created_at, counters) are never consumed by the code. -/
structure Rec where
  response : Option Str
  done : Bool
deriving DecidableEq

/-- Model of `parsed.response || ''`. -/
def frag (r : Rec) : Str := r.response.getD []

/-- One iteration of the `jsonResponses.forEach` body: on a successful parse the
fragment is appended and the line is counted as `jsonString + '\n'` into
`processedResponse`; on a parse failure nothing happens. -/
def procLine (parse : Str → Option Rec) (acc : Str × Nat) (l : Str) : Str × Nat :=
  match parse l with
  | some r => (acc.1 ++ frag r, acc.2 + (l.length + 1))
  | none => acc

/-- The whole `forEach` loop: accumulated fragments and `processedResponse.length`. -/
def scanLines (parse : Str → Option Rec) (lines : List Str) : Str × Nat :=
  lines.foldl (procLine parse) ([], 0)

/-- Model of `fullResponse.split('\n').filter(line => line.trim() !== '')`. -/
def candLines (full : Str) : List Str :=
  (splitNl full).filter (fun l => !(trim l).isEmpty)

/-- State of one in-flight request: `generatedMessage` and `fullResponse`. -/
structure AccSt where
  msg : Str
  buf : Str
deriving DecidableEq

/-- The effect of one data event on the buffered text `full`: the pair of the
text appended to `generatedMessage` and of `fullResponse.substring(len)`. -/
def dataStep (parse : Str → Option Rec) (full : Str) : Str × Str :=
  let r := scanLines parse (candLines full)
  (r.1, full.drop r.2)

/-- The `stream.on('data')` handler (extension.ts lines 117-132). -/
def onData (parse : Str → Option Rec) (st : AccSt) (chunk : Str) : AccSt :=
  let r := dataStep parse (st.buf ++ chunk)
  { msg := st.msg ++ r.1, buf := r.2 }

/-- The final-parse part of the `stream.on('end')` handler (lines 134-142):
the value of `generatedMessage` after the last attempt on `fullResponse`. -/
def onEnd (parse : Str → Option Rec) (st : AccSt) : Str :=
  if (trim st.buf).isEmpty then st.msg
  else
    match parse st.buf with
    | some r => st.msg ++ frag r
    | none => st.msg

/-- Feed a list of chunks, in order, to the data handler. -/
def runChunks (parse : Str → Option Rec) (chunks : List Str) : AccSt :=
  chunks.foldl (onData parse) { msg := [], buf := [] }

/-- Feed the chunks, then fire the end handler: the raw accumulated text. -/
def runStreamEnd (parse : Str → Option Rec) (chunks : List Str) : Str :=
  onEnd parse (runChunks parse chunks)

/-- Model of JS `String.prototype.substring`: both indices are clamped to the
string length and swapped when start exceeds end. -/
def jsSubstring (s : Str) (a b : Nat) : Str :=
  let a' := min a s.length
  let b' := min b s.length
  (s.take (max a' b')).drop (min a' b')

/-- Model of `startsWith(q) && endsWith(q)` for a one-character string `q`. -/
def isQuoteWrapped (s : Str) (q : Char) : Bool := s.head? = some q && s.getLast? = some q

/-- Lines 144-146: strip the outer quotes via `substring(1, length - 1)`. -/
def stripQuotes (s : Str) : Str :=
  if isQuoteWrapped s '"' || isQuoteWrapped s '\'' then jsSubstring s 1 (s.length - 1) else s

def toLowerStr (s : Str) : Str := s.map Char.toLower

/-- Model of `replace(/^lab/i, '')` for a literal lowercase pattern `pat`. -/
def stripLabelCI (pat s : Str) : Str :=
  if toLowerStr (s.take pat.length) = pat then s.drop pat.length else s

def cmLabel : Str := ("commit message:").data

def mLabel : Str := ("message:").data

/-- The whole cleanup of `generatedMessage` (lines 143-148). -/
def cleanup (s : Str) : Str :=
  let c1 := trim s
  let c2 := stripQuotes c1
  let c3 := trim (stripLabelCI cmLabel c2)
  trim (stripLabelCI mLabel c3)

/-- Lines 150-155: `resolve(null)` on an empty cleaned message (after a warning),
`resolve(cleanedMessage)` otherwise. -/
def finishResult (m : Str) : Option Str :=
  let c := cleanup m
  if c.isEmpty then none else some c

/-- The complete end handler: accumulated state to resolved value. -/
def endResolve (parse : Str → Option Rec) (st : AccSt) : Option Str :=
  finishResult (onEnd parse st)

/-- Cleanup as the specification words it: trim; strip one layer when the whole
string is wrapped in a matching pair of straight quotes; strip each label at
most once, in order, re-trimming after each label strip. -/
def pairWrapped (s : Str) (q : Char) : Bool :=
  decide (2 ≤ s.length) && s.head? = some q && s.getLast? = some q

def stripOneLayer (s : Str) : Str :=
  if pairWrapped s '"' || pairWrapped s '\'' then (s.drop 1).dropLast else s

def cleanupSpec (s : Str) : Str :=
  trim (stripLabelCI mLabel (trim (stripLabelCI cmLabel (stripOneLayer (trim s)))))

/-- The backtick character, `$`-escape `$` followed by it inserts the prefix. -/
def backtickChar : Char := Char.ofNat 96

/-- Model of the JS GetSubstitution processing of a replacement string when the
pattern is a plain string (no capture groups): `$$`, `$&`, the backtick escape
and `$'` are interpreted, any other `$` is literal. -/
def dollarSubst (matched pre post : Str) : Str → Str
  | [] => []
  | ['$'] => ['$']
  | '$' :: '$' :: rest => '$' :: dollarSubst matched pre post rest
  | '$' :: '&' :: rest => matched ++ dollarSubst matched pre post rest
  | '$' :: '\'' :: rest => post ++ dollarSubst matched pre post rest
  | '$' :: d :: rest =>
    if d = backtickChar then pre ++ dollarSubst matched pre post rest
    else '$' :: dollarSubst matched pre post (d :: rest)
  | c :: rest => c :: dollarSubst matched pre post rest

/-- Split a string around the first occurrence of `pat`, when there is one. -/
def splitAtFirst (pat : Str) : Str → Option (Str × Str)
  | [] => if pat.isEmpty then some ([], []) else none
  | c :: cs =>
    if pat.isPrefixOf (c :: cs) then some ([], (c :: cs).drop pat.length)
    else
      match splitAtFirst pat cs with
      | some (a, b) => some (c :: a, b)
      | none => none

/-- Model of JS `String.prototype.replace` with a string pattern: first
occurrence only, `$`-substitution applied to the replacement text. -/
def jsReplaceFirst (s pat rep : Str) : Str :=
  match splitAtFirst pat s with
  | none => s
  | some (pre, post) => pre ++ dollarSubst pat pre post rep ++ post

/-- The fixed truncation marker appended to an over-long diff (line 97). -/
def truncMarker : Str := '\n' :: ("... (diff truncated)").data

/-- Line 97: `diff.length > maxDiffLength ? diff.substring(0, max) + marker : diff`. -/
def mkTruncated (diff : Str) (maxLen : Nat) : Str :=
  if maxLen < diff.length then diff.take maxLen ++ truncMarker else diff

def placeholder : Str := ("\x7bdiff\x7d").data

/-- Line 98: `promptTemplate.replace('{diff}', truncatedDiff)`. -/
def finalPrompt (template diff : Str) (maxLen : Nat) : Str :=
  jsReplaceFirst template placeholder (mkTruncated diff maxLen)

/-- The user-visible notices the modelled paths can show. -/
inductive Notice
  | configMissing
  | apiFailure
  | streamFailure
  | emptyWarning
  | generatedInfo
deriving DecidableEq

inductive StreamTerm
  | ended
  | errored
deriving DecidableEq

/-- What the transport does: the request itself fails (caught by the outer
try/catch), or a response stream delivers chunks and then ends or errors. -/
inductive NetBehavior
  | reqFail
  | streamEvents (chunks : List Str) (term : StreamTerm)

structure Config where
  apiUrl : Option Str
  model : Option Str
  prompt : Option Str
  maxDiffLength : Nat

/-- JS falsiness of `config.get<string>(..)`: absent or the empty string. -/
def isFalsyStr : Option Str → Bool
  | none => true
  | some s => s.isEmpty

/-- Line 92: `!apiUrl || !model || !promptTemplate`. -/
def cfgMissing (c : Config) : Bool :=
  isFalsyStr c.apiUrl || isFalsyStr c.model || isFalsyStr c.prompt

/-- Outcome of `generateCommitMessage`: the settled promise value
(`Except.error` is a rejected promise), the notices it showed, whether an HTTP
request was issued and with which rendered prompt. -/
structure GenRun where
  result : Except Unit (Option Str)
  notices : List Notice
  requested : Bool
  sentPrompt : Option Str

/-- The end-handler resolution of a stream that completed successfully
(lines 134-156): warn and resolve null on an empty cleaned message, resolve the
cleaned message otherwise. -/
def endedRun (parse : Str → Option Rec) (cfg : Config) (diff : Str)
    (chunks : List Str) : GenRun :=
  match finishResult (runStreamEnd parse chunks) with
  | none =>
    { result := .ok none, notices := [.emptyWarning], requested := true,
      sentPrompt := some (finalPrompt ((cfg.prompt).getD []) diff cfg.maxDiffLength) }
  | some c =>
    { result := .ok (some c), notices := [], requested := true,
      sentPrompt := some (finalPrompt ((cfg.prompt).getD []) diff cfg.maxDiffLength) }

/-- `generateCommitMessage` (lines 85-203): the config check, the request, and
the wiring of the response stream into the accumulator. -/
def generateModel (parse : Str → Option Rec) (cfg : Config) (diff : Str)
    (net : NetBehavior) : GenRun :=
  if cfgMissing cfg then
    { result := .ok none, notices := [.configMissing], requested := false, sentPrompt := none }
  else
    match net with
    | .reqFail =>
      { result := .ok none, notices := [.apiFailure], requested := true,
        sentPrompt := some (finalPrompt ((cfg.prompt).getD []) diff cfg.maxDiffLength) }
    | .streamEvents chunks .ended => endedRun parse cfg diff chunks
    | .streamEvents _ .errored =>
      { result := .error (), notices := [.streamFailure], requested := true,
        sentPrompt := some (finalPrompt ((cfg.prompt).getD []) diff cfg.maxDiffLength) }

/-- Outcome of one command invocation: whether the handler's promise was left
rejected, the value written into the commit input box, the notices shown. -/
structure CmdRun where
  rejected : Bool
  written : Option Str
  notices : List Notice
deriving DecidableEq

/-- The command handler's result dispatch (lines 238-250), with the input box
present: a truthy message is written and an info notice shown; `null` does
nothing further; a rejection of the awaited promise propagates uncaught. -/
def commandRun (parse : Str → Option Rec) (cfg : Config) (diff : Str)
    (net : NetBehavior) : CmdRun :=
  let g := generateModel parse cfg diff net
  match g.result with
  | .error _ => { rejected := true, written := none, notices := g.notices }
  | .ok none => { rejected := false, written := none, notices := g.notices }
  | .ok (some m) =>
    { rejected := false,
      written := if m.isEmpty then none else some m,
      notices := g.notices ++ [.generatedInfo] }

/-- The byte sequence of a well-formed stream: each record line followed by a
newline. -/
def streamBytes (rs : List (Str × Rec)) : Str :=
  match rs with
  | [] => []
  | e :: rest => e.1 ++ '\n' :: streamBytes rest

/-- Concatenation of the response fragments of a record sequence, in order. -/
def fragsConcat (rs : List (Str × Rec)) : Str :=
  match rs with
  | [] => []
  | e :: rest => frag e.2 ++ fragsConcat rest

/-- A well-formed record line for a given parse function: it parses to the
stated record, holds no newline, is not whitespace, and no proper prefix of it
parses (a truncated JSON object is not valid JSON). -/
def WfLine (parse : Str → Option Rec) (t : Str) (r : Rec) : Prop :=
  parse t = some r ∧ '\n' ∉ t ∧ trim t ≠ [] ∧ ∀ p ∈ t.inits, p ≠ t → parse p = none

def WfStream (parse : Str → Option Rec) (rs : List (Str × Rec)) : Prop :=
  ∀ e ∈ rs, WfLine parse e.1 e.2

/-- Record lines used by the concrete witnesses, with a table-driven parse
function standing in for `JSON.parse` on them. -/
def tFix : Str := ("\x7b\"response\":\"Fix \"\x7d").data

def rFix : Rec := { response := some (("Fix ").data), done := false }

def tBug : Str := ("\x7b\"response\":\"bug\",\"done\":true\x7d").data

def rBug : Rec := { response := some (("bug").data), done := true }

def tInP : Str := ("\x7b\"response\":\" in parser\"\x7d").data

def rInP : Rec := { response := some ((" in parser").data), done := false }

def tX : Str := ("\x7b\"response\":\"x\"\x7d").data

def rX : Rec := { response := some (("x").data), done := false }

def pcTable : List (Str × Rec) := [(tFix, rFix), (tBug, rBug), (tInP, rInP), (tX, rX)]

def pc (s : Str) : Option Rec := (pcTable.find? (fun e => e.1 == s)).map (fun e => e.2)

def flipDone (r : Rec) : Rec := { r with done := !r.done }

/-- A parse function agreeing with `pc` on everything except the done flag. -/
def pcFlip (s : Str) : Option Rec := (pc s).map flipDone

instance (parse : Str → Option Rec) (t : Str) (r : Rec) : Decidable (WfLine parse t r) := by
  unfold WfLine; infer_instance

instance (parse : Str → Option Rec) (rs : List (Str × Rec)) : Decidable (WfStream parse rs) := by
  unfold WfStream; infer_instance


/-! ### Derived definitions used by the theorems -/

/-- `q` is either empty or a proper prefix of the text of the next record. -/
def ProperPre (q : Str) (rs : List (Str × Rec)) : Prop :=
  q = [] ∨ ∃ e rest, rs = e :: rest ∧ (∃ d, q ++ d = e.1) ∧ q ≠ e.1

/-- Relation between the accumulator state and the not-yet-delivered suffix `R`
of a well-formed stream: a split of the records into consumed and pending ones,
the message holding exactly the consumed fragments, and the buffer holding at
most one stray newline plus the pending partial line.  The second disjunct is
the state right after a complete record was consumed before its newline was
delivered. -/
def Inv (parse : Str → Option Rec) (rs : List (Str × Rec)) (st : AccSt) (R : Str) : Prop :=
  ∃ rs1 rs2, rs = rs1 ++ rs2 ∧ st.msg = fragsConcat rs1 ∧
    ((∃ w q, (w = [] ∨ w = ['\n']) ∧ st.buf = w ++ q ∧ ProperPre q rs2 ∧
        q ++ R = streamBytes rs2) ∨
     (st.buf = [] ∧ R = '\n' :: streamBytes rs2))

/-- The record sequence of the specification's three-record example. -/
def rsW : List (Str × Rec) := [(tFix, rFix), (tBug, rBug), (tInP, rInP)]

/-- `processedResponse.length` of one data event. -/
def eventConsumed (parse : Str → Option Rec) (st : AccSt) (c : Str) : Nat :=
  (scanLines parse (candLines (st.buf ++ c))).2

def countStep (parse : Str → Option Rec) (p : AccSt × Nat) (c : Str) : AccSt × Nat :=
  (onData parse p.1 c, p.2 + eventConsumed parse p.1 c)

/-- The run together with the cumulative number of bytes counted as consumed
into parsed lines (each parsed line counted with one terminating newline). -/
def runCounted (parse : Str → Option Rec) (chunks : List Str) : AccSt × Nat :=
  chunks.foldl (countStep parse) ({ msg := [], buf := [] }, 0)

/-- The final candidate line of the buffered text is not consumed by the event:
it is whitespace-only or fails to parse. -/
def lastLineBenign (parse : Str → Option Rec) (full : Str) : Bool :=
  match (splitNl full).getLast? with
  | none => true
  | some L => (trim L).isEmpty || (parse L).isNone

/-- Every event of the run keeps its final candidate line unconsumed. -/
def goodRun (parse : Str → Option Rec) : Str → List Str → Bool
  | _, [] => true
  | buf, c :: cs =>
    lastLineBenign parse (buf ++ c) && goodRun parse (dataStep parse (buf ++ c)).2 cs

def lineWeight (l : Str) : Nat := l.length + 1

def joinNl : List Str → Str
  | [] => []
  | [l] => l
  | l :: ls => l ++ '\n' :: joinNl ls

/-- A chunk whose first line is whitespace-only, followed by one record line. -/
def c2chunk : Str := List.replicate 17 ' ' ++ '\n' :: (tX ++ ['\n'])

/-- A fully populated configuration for the concrete witnesses. -/
def cfgOk : Config :=
  { apiUrl := some (("http://localhost:11434/api/generate").data),
    model := some (("llama3").data),
    prompt := some placeholder,
    maxDiffLength := 4000 }

/-- A configuration with a required setting absent. -/
def cfgNoUrl : Config :=
  { apiUrl := none, model := some (("llama3").data), prompt := some placeholder,
    maxDiffLength := 4000 }


/-! ### Basic lemmas about the text primitives -/

theorem trim_nil : trim [] = [] := rfl

theorem trim_nl : trim ['\n'] = [] := by decide

theorem splitNl_nil : splitNl [] = [[]] := rfl

theorem splitNl_nl (s : Str) : splitNl ('\n' :: s) = [] :: splitNl s := by
  simp [splitNl]

theorem splitNl_cons_ne (c : Char) (s : Str) (h : c ≠ '\n') :
    splitNl (c :: s) = (c :: (splitNl s).headI) :: (splitNl s).tail := by
  simp [splitNl, h]

theorem splitNl_ne_nil (s : Str) : splitNl s ≠ [] := by
  cases s with
  | nil => simp [splitNl]
  | cons c cs =>
    by_cases h : c = '\n'
    · subst h; simp [splitNl_nl]
    · simp [splitNl_cons_ne c cs h]

theorem splitNl_no_nl (a : Str) (h : '\n' ∉ a) : splitNl a = [a] := by
  induction a with
  | nil => rfl
  | cons c cs ih =>
    have hc : c ≠ '\n' := fun e => h (by simp [e])
    have hcs : '\n' ∉ cs := fun m => h (List.mem_cons_of_mem _ m)
    rw [splitNl_cons_ne c cs hc, ih hcs]
    rfl

theorem splitNl_append_nl (a s : Str) (h : '\n' ∉ a) :
    splitNl (a ++ '\n' :: s) = a :: splitNl s := by
  induction a with
  | nil => simpa using splitNl_nl s
  | cons c cs ih =>
    have hc : c ≠ '\n' := fun e => h (by simp [e])
    have hcs : '\n' ∉ cs := fun m => h (List.mem_cons_of_mem _ m)
    rw [List.cons_append, splitNl_cons_ne _ _ hc, ih hcs]
    rfl

/-- The filter predicate of `candLines`. -/
theorem keep_iff (l : Str) : (!(trim l).isEmpty) = true ↔ trim l ≠ [] := by
  rw [Bool.not_eq_true']
  rw [List.isEmpty_eq_false_iff_exists_mem]
  constructor
  · rintro ⟨x, hx⟩ hnil; rw [hnil] at hx; exact (List.not_mem_nil x) hx
  · intro hne
    cases hl : trim l with
    | nil => exact absurd hl hne
    | cons x xs => exact ⟨x, by simp [hl]⟩

theorem keep_nil : (!(trim ([] : Str)).isEmpty) = false := rfl

theorem keep_nl : (!(trim ['\n']).isEmpty) = false := by decide

/-! ### streamBytes and fragsConcat -/

theorem streamBytes_nil : streamBytes [] = [] := rfl

theorem streamBytes_cons (e : Str × Rec) (rest : List (Str × Rec)) :
    streamBytes (e :: rest) = e.1 ++ '\n' :: streamBytes rest := rfl

theorem fragsConcat_nil : fragsConcat [] = [] := rfl

theorem fragsConcat_cons (e : Str × Rec) (rest : List (Str × Rec)) :
    fragsConcat (e :: rest) = frag e.2 ++ fragsConcat rest := rfl

theorem fragsConcat_append (a b : List (Str × Rec)) :
    fragsConcat (a ++ b) = fragsConcat a ++ fragsConcat b := by
  induction a with
  | nil => rfl
  | cons e rest ih => simp [fragsConcat_cons, ih]

theorem streamBytes_append (a b : List (Str × Rec)) :
    streamBytes (a ++ b) = streamBytes a ++ streamBytes b := by
  induction a with
  | nil => rfl
  | cons e rest ih => simp [streamBytes_cons, ih]

theorem streamBytes_eq_nil (rs : List (Str × Rec)) (h : streamBytes rs = []) : rs = [] := by
  cases rs with
  | nil => rfl
  | cons e rest =>
    rw [streamBytes_cons] at h
    rcases List.append_eq_nil.mp h with ⟨-, h2⟩
    exact absurd h2 (List.cons_ne_nil _ _)

theorem streamBytes_concat (e : Str × Rec) (rest : List (Str × Rec)) :
    ∃ y, streamBytes (e :: rest) = y ++ ['\n'] := by
  induction rest generalizing e with
  | nil => exact ⟨e.1, by simp [streamBytes_cons, streamBytes_nil]⟩
  | cons f rest ih =>
    obtain ⟨y, hy⟩ := ih f
    exact ⟨e.1 ++ '\n' :: y, by simp [streamBytes_cons] at hy ⊢; simp [hy]⟩

theorem splitNl_streamBytes_append (rs : List (Str × Rec)) (q : Str)
    (hnl : ∀ e ∈ rs, '\n' ∉ e.1) (hq : '\n' ∉ q) :
    splitNl (streamBytes rs ++ q) = rs.map (fun e => e.1) ++ [q] := by
  induction rs with
  | nil => simpa using splitNl_no_nl q hq
  | cons e rest ih =>
    rw [streamBytes_cons, List.append_assoc, List.cons_append,
      splitNl_append_nl _ _ (hnl e (List.mem_cons_self _ _)),
      ih (fun x hx => hnl x (List.mem_cons_of_mem _ hx))]
    rfl

/-! ### scanLines -/

theorem scanLines_nil (parse : Str → Option Rec) : scanLines parse [] = ([], 0) := rfl

theorem procLine_shift (parse : Str → Option Rec) (x : Str) (m : Str) (n : Nat) :
    procLine parse (m, n) x =
      (m ++ (procLine parse ([], 0) x).1, n + (procLine parse ([], 0) x).2) := by
  unfold procLine
  cases parse x <;> simp

theorem foldl_procLine_shift (parse : Str → Option Rec) (xs : List Str) :
    ∀ m n, xs.foldl (procLine parse) (m, n) =
      (m ++ (scanLines parse xs).1, n + (scanLines parse xs).2) := by
  induction xs with
  | nil => intro m n; simp [scanLines]
  | cons x xs ih =>
    intro m n
    have hr : scanLines parse (x :: xs) =
        ((procLine parse ([], 0) x).1 ++ (scanLines parse xs).1,
         (procLine parse ([], 0) x).2 + (scanLines parse xs).2) := by
      unfold scanLines
      rw [List.foldl_cons]
      rw [show procLine parse ([], 0) x =
        ((procLine parse ([], 0) x).1, (procLine parse ([], 0) x).2) from rfl]
      rw [ih]
      rfl
    rw [List.foldl_cons, procLine_shift, ih, hr]
    simp [List.append_assoc, Nat.add_assoc]

theorem scanLines_cons (parse : Str → Option Rec) (x : Str) (xs : List Str) :
    scanLines parse (x :: xs) =
      ((procLine parse ([], 0) x).1 ++ (scanLines parse xs).1,
       (procLine parse ([], 0) x).2 + (scanLines parse xs).2) := by
  unfold scanLines
  rw [List.foldl_cons]
  rw [show procLine parse ([], 0) x =
    ((procLine parse ([], 0) x).1, (procLine parse ([], 0) x).2) from rfl]
  rw [foldl_procLine_shift]
  rfl

theorem scanLines_append (parse : Str → Option Rec) (xs ys : List Str) :
    scanLines parse (xs ++ ys) =
      ((scanLines parse xs).1 ++ (scanLines parse ys).1,
       (scanLines parse xs).2 + (scanLines parse ys).2) := by
  unfold scanLines
  rw [List.foldl_append]
  rw [show (List.foldl (procLine parse) ([], 0) xs : Str × Nat) =
    ((scanLines parse xs).1, (scanLines parse xs).2) from rfl]
  rw [foldl_procLine_shift]
  rfl

theorem scanLines_parsed (parse : Str → Option Rec) (rs : List (Str × Rec))
    (h : ∀ e ∈ rs, parse e.1 = some e.2) :
    scanLines parse (rs.map (fun e => e.1)) = (fragsConcat rs, (streamBytes rs).length) := by
  induction rs with
  | nil => simp [scanLines_nil, fragsConcat_nil, streamBytes_nil]
  | cons e rest ih =>
    rw [List.map_cons, scanLines_cons, ih (fun x hx => h x (List.mem_cons_of_mem _ hx))]
    have hp : procLine parse ([], 0) e.1 = (frag e.2, e.1.length + 1) := by
      unfold procLine
      rw [h e (List.mem_cons_self _ _)]
      simp
    rw [hp, fragsConcat_cons, streamBytes_cons]
    simp [Nat.add_comm, Nat.add_assoc, Nat.add_left_comm]

/-! ### candLines on a well-shaped buffer -/

theorem candLines_decomp (rs : List (Str × Rec)) (q w : Str)
    (hw : w = [] ∨ w = ['\n'])
    (hnl : ∀ e ∈ rs, '\n' ∉ e.1) (ht : ∀ e ∈ rs, trim e.1 ≠ []) (hq : '\n' ∉ q) :
    candLines (w ++ streamBytes rs ++ q) =
      rs.map (fun e => e.1) ++ (if trim q = [] then [] else [q]) := by
  have hsplit : splitNl (w ++ streamBytes rs ++ q) =
      (if w = [] then ([] : List Str) else [[]]) ++ (rs.map (fun e => e.1) ++ [q]) := by
    rcases hw with hw | hw
    · subst hw
      rw [List.nil_append, splitNl_streamBytes_append rs q hnl hq]
      simp
    · subst hw
      rw [show ((['\n'] : Str) ++ streamBytes rs ++ q) = '\n' :: (streamBytes rs ++ q) by simp,
        splitNl_nl, splitNl_streamBytes_append rs q hnl hq]
      simp
  unfold candLines
  rw [hsplit, List.filter_append, List.filter_append]
  have h1 : List.filter (fun l => !(trim l).isEmpty)
      (if w = [] then ([] : List Str) else [[]]) = [] := by
    rcases hw with hw | hw <;> simp [hw, keep_nil]
  have h2 : List.filter (fun l => !(trim l).isEmpty) (rs.map (fun e => e.1)) =
      rs.map (fun e => e.1) := by
    rw [List.filter_eq_self]
    intro a ha
    obtain ⟨e, he, rfl⟩ := List.mem_map.mp ha
    exact (keep_iff _).mpr (ht e he)
  have h3 : List.filter (fun l => !(trim l).isEmpty) [q] =
      (if trim q = [] then [] else [q]) := by
    by_cases hqt : trim q = []
    · simp [hqt, List.filter, Bool.not_eq_true', List.isEmpty_iff]
    · simp only [List.filter]
      rw [show (!(trim q).isEmpty) = true from (keep_iff q).mpr hqt]
      simp [hqt]
  rw [h1, h2, h3]
  simp

/-! ### The two shapes one data event can take on a well-formed buffer -/

theorem dataStep_proper (parse : Str → Option Rec) (rs : List (Str × Rec)) (q w : Str)
    (hw : w = [] ∨ w = ['\n'])
    (hwf : ∀ e ∈ rs, parse e.1 = some e.2 ∧ '\n' ∉ e.1 ∧ trim e.1 ≠ [])
    (hq : '\n' ∉ q) (hqp : trim q = [] ∨ parse q = none) :
    dataStep parse (w ++ streamBytes rs ++ q) = (fragsConcat rs, w ++ q) := by
  have hcand := candLines_decomp rs q w hw (fun e he => (hwf e he).2.1)
    (fun e he => (hwf e he).2.2) hq
  have hscanq : scanLines parse (if trim q = [] then [] else [q]) = ([], 0) := by
    by_cases hqt : trim q = []
    · simp [hqt, scanLines_nil]
    · rcases hqp with h | h
      · exact absurd h hqt
      · simp only [if_neg hqt]
        rw [scanLines_cons, scanLines_nil]
        unfold procLine
        rw [h]
        simp
  have hscan : scanLines parse (candLines (w ++ streamBytes rs ++ q)) =
      (fragsConcat rs, (streamBytes rs).length) := by
    rw [hcand, scanLines_append, scanLines_parsed parse rs (fun e he => (hwf e he).1), hscanq]
    simp
  have hdrop : (w ++ streamBytes rs ++ q).drop (streamBytes rs).length = w ++ q := by
    rcases hw with hw | hw
    · subst hw
      simpa using List.drop_left (streamBytes rs) q
    · subst hw
      cases rs with
      | nil => simp [streamBytes_nil]
      | cons e rest =>
        obtain ⟨y, hy⟩ := streamBytes_concat e rest
        rw [hy]
        rw [show (['\n'] : Str) ++ (y ++ ['\n']) ++ q = ('\n' :: y) ++ ('\n' :: q) by simp]
        have hlen : (y ++ ['\n']).length = ('\n' :: y).length := by simp
        rw [hlen]
        simpa using List.drop_left ('\n' :: y) ('\n' :: q)
  unfold dataStep
  simp only [hscan]
  exact Prod.ext_iff.mpr ⟨rfl, hdrop⟩

theorem dataStep_complete (parse : Str → Option Rec) (rs : List (Str × Rec))
    (q w : Str) (r : Rec)
    (hw : w = [] ∨ w = ['\n'])
    (hwf : ∀ e ∈ rs, parse e.1 = some e.2 ∧ '\n' ∉ e.1 ∧ trim e.1 ≠ [])
    (hq : '\n' ∉ q) (hqt : trim q ≠ []) (hqp : parse q = some r) :
    dataStep parse (w ++ streamBytes rs ++ q) = (fragsConcat rs ++ frag r, []) := by
  have hcand := candLines_decomp rs q w hw (fun e he => (hwf e he).2.1)
    (fun e he => (hwf e he).2.2) hq
  rw [if_neg hqt] at hcand
  have hscanq : scanLines parse [q] = (frag r, q.length + 1) := by
    rw [scanLines_cons, scanLines_nil]
    unfold procLine
    rw [hqp]
    simp
  have hscan : scanLines parse (candLines (w ++ streamBytes rs ++ q)) =
      (fragsConcat rs ++ frag r, (streamBytes rs).length + (q.length + 1)) := by
    rw [hcand, scanLines_append, scanLines_parsed parse rs (fun e he => (hwf e he).1), hscanq]
  have hlen : (w ++ streamBytes rs ++ q).length ≤ (streamBytes rs).length + (q.length + 1) := by
    rcases hw with hw | hw <;> subst hw <;> simp <;> omega
  unfold dataStep
  simp only [hscan]
  exact Prod.ext_iff.mpr ⟨rfl, List.drop_eq_nil_of_le hlen⟩

/-! ### Decomposing a prefix of a well-formed byte stream -/

theorem prefix_streamBytes (rs : List (Str × Rec)) :
    ∀ P R, P ++ R = streamBytes rs →
    ∃ rsA rsB q, rs = rsA ++ rsB ∧ P = streamBytes rsA ++ q ∧
      q ++ R = streamBytes rsB ∧
      ((rsB = [] ∧ q = []) ∨ ∃ e rest, rsB = e :: rest ∧ ∃ d, q ++ d = e.1) := by
  induction rs with
  | nil =>
    intro P R h
    rw [streamBytes_nil] at h
    rcases List.append_eq_nil.mp h with ⟨hP, hR⟩
    exact ⟨[], [], [], rfl, by simp [hP, streamBytes_nil], by simp [hR, streamBytes_nil],
      Or.inl ⟨rfl, rfl⟩⟩
  | cons e rest ih =>
    intro P R h
    rw [streamBytes_cons] at h
    rcases List.append_eq_append_iff.mp h with ⟨d, hd1, -⟩ | ⟨c, hc1, hc2⟩
    · exact ⟨[], e :: rest, P, by simp, by simp [streamBytes_nil],
        by rw [streamBytes_cons]; exact h, Or.inr ⟨e, rest, rfl, d, hd1.symm⟩⟩
    · cases c with
      | nil =>
        refine ⟨[], e :: rest, P, by simp, by simp [streamBytes_nil],
          by rw [streamBytes_cons]; exact h, Or.inr ⟨e, rest, rfl, [], ?_⟩⟩
        rw [hc1]
        simp
      | cons c0 c' =>
        rw [List.cons_append] at hc2
        have hc0 : c0 = '\n' := (List.cons.injEq '\n' _ c0 _).mp hc2 |>.1.symm
        have hsb : c' ++ R = streamBytes rest :=
          ((List.cons.injEq '\n' _ c0 _).mp hc2).2.symm
        obtain ⟨rsA, rsB, q, hsplit, hPA, hqR, hshape⟩ := ih c' R hsb
        refine ⟨e :: rsA, rsB, q, by rw [List.cons_append, hsplit], ?_, hqR, hshape⟩
        rw [hc1, hc0, streamBytes_cons, hPA]
        simp

/-! ### The run invariant of the accumulator over a well-formed stream -/

theorem onData_buf_msg (parse : Str → Option Rec) (st : AccSt) (c : Str) :
    onData parse st c =
      { msg := st.msg ++ (dataStep parse (st.buf ++ c)).1,
        buf := (dataStep parse (st.buf ++ c)).2 } := rfl

theorem wf_sub (parse : Str → Option Rec) (rs sub : List (Str × Rec))
    (hwf : WfStream parse rs) (h : ∀ e ∈ sub, e ∈ rs) :
    ∀ e ∈ sub, parse e.1 = some e.2 ∧ '\n' ∉ e.1 ∧ trim e.1 ≠ [] := by
  intro e he
  obtain ⟨h1, h2, h3, -⟩ := hwf e (h e he)
  exact ⟨h1, h2, h3⟩

/-- The common continuation of one data event once the buffered text has been
decomposed against the pending records. -/
theorem Inv_onData_of_decomp (parse : Str → Option Rec)
    (rs rs1 rsA rsB : List (Str × Rec)) (st : AccSt) (c w q R : Str)
    (hrs : rs = rs1 ++ (rsA ++ rsB))
    (hwf : WfStream parse rs)
    (hmsg : st.msg = fragsConcat rs1)
    (hfull : st.buf ++ c = w ++ streamBytes rsA ++ q)
    (hw : w = [] ∨ w = ['\n'])
    (hqR : q ++ R = streamBytes rsB)
    (hshape : (rsB = [] ∧ q = []) ∨ ∃ e rest, rsB = e :: rest ∧ ∃ d, q ++ d = e.1) :
    Inv parse rs (onData parse st c) R := by
  have hmemA : ∀ e ∈ rsA, e ∈ rs := by
    intro e he; rw [hrs]; exact List.mem_append_right _ (List.mem_append_left _ he)
  have hmemB : ∀ e ∈ rsB, e ∈ rs := by
    intro e he; rw [hrs]; exact List.mem_append_right _ (List.mem_append_right _ he)
  have hwfA := wf_sub parse rs rsA hwf hmemA
  rcases hshape with ⟨hB, hq⟩ | ⟨e, rest, hB, d, hd⟩
  · -- no pending record: the tail q is empty
    subst hB; subst hq
    have hstep := dataStep_proper parse rsA [] w hw hwfA (by simp) (Or.inl trim_nil)
    rw [onData_buf_msg, hfull, hstep]
    refine ⟨rs1 ++ rsA, [], by simpa using hrs, by simp [hmsg, fragsConcat_append], ?_⟩
    exact Or.inl ⟨w, [], hw, by simp, Or.inl rfl, by simpa [streamBytes_nil] using hqR⟩
  · -- q is a prefix of the next record text e.1
    obtain ⟨hp1, hp2, hp3, hp4⟩ := hwf e (hmemB e (hB ▸ List.mem_cons_self e rest))
    have hqnl : '\n' ∉ q := by
      intro hmem
      exact hp2 (by rw [← hd]; exact List.mem_append_left _ hmem)
    by_cases hqe : q = e.1
    · -- the buffered tail is a complete record: consumed eagerly
      have hstep := dataStep_complete parse rsA q w e.2 hw hwfA hqnl
        (by rw [hqe]; exact hp3) (by rw [hqe]; exact hp1)
      rw [onData_buf_msg, hfull, hstep]
      refine ⟨rs1 ++ (rsA ++ [e]), rest, by simp [hrs, hB], ?_, ?_⟩
      · simp [hmsg, fragsConcat_append, fragsConcat_cons, fragsConcat_nil]
      · refine Or.inr ⟨rfl, ?_⟩
        rw [hB, streamBytes_cons, ← hqe] at hqR
        have := List.append_cancel_left hqR
        exact this
    · -- the buffered tail is a proper prefix: retained, it fails to parse
      have hqnone : parse q = none := by
        refine hp4 q ?_ hqe
        exact (List.mem_inits q e.1).mpr ⟨d, hd⟩
      have hstep := dataStep_proper parse rsA q w hw hwfA hqnl (Or.inr hqnone)
      rw [onData_buf_msg, hfull, hstep]
      refine ⟨rs1 ++ rsA, rsB, by simpa using hrs,
        by simp [hmsg, fragsConcat_append], ?_⟩
      exact Or.inl ⟨w, q, hw, rfl, Or.inr ⟨e, rest, hB, ⟨d, hd⟩, hqe⟩, hqR⟩

theorem dataStep_nil (parse : Str → Option Rec) : dataStep parse [] = ([], []) := rfl

/-- One data event preserves the invariant. -/
theorem Inv_step (parse : Str → Option Rec) (rs : List (Str × Rec)) (st : AccSt)
    (c R : Str) (hwf : WfStream parse rs) (h : Inv parse rs st (c ++ R)) :
    Inv parse rs (onData parse st c) R := by
  obtain ⟨rs1, rs2, hrs, hmsg, hcase⟩ := h
  rcases hcase with ⟨w, q, hw, hbuf, hpre, hqR⟩ | ⟨hbuf, hR⟩
  · -- main case: buffer is a stray newline plus a partial line
    have hPR : (q ++ c) ++ R = streamBytes rs2 := by
      rw [List.append_assoc]; exact hqR
    obtain ⟨rsA, rsB, q', hsplit, hPA, hq'R, hshape⟩ :=
      prefix_streamBytes rs2 (q ++ c) R hPR
    refine Inv_onData_of_decomp parse rs rs1 rsA rsB st c w q' R
      (by rw [hrs, hsplit]) hwf hmsg ?_ hw hq'R hshape
    rw [hbuf, List.append_assoc, hPA, List.append_assoc]
  · -- after an eagerly consumed record: the next byte is its newline
    cases c with
    | nil =>
      rw [List.nil_append] at hR
      have hmsg2 : (onData parse st []).msg = fragsConcat rs1 := by
        rw [onData_buf_msg, hbuf]
        simp [dataStep_nil, hmsg]
      have hbuf2 : (onData parse st []).buf = [] := by
        rw [onData_buf_msg, hbuf]
        simp [dataStep_nil]
      exact ⟨rs1, rs2, hrs, hmsg2, Or.inr ⟨hbuf2, hR⟩⟩
    | cons c0 c' =>
      rw [List.cons_append] at hR
      have hc0 : c0 = '\n' := ((List.cons.injEq '\n' _ c0 _).mp hR.symm).1.symm
      have hsb : c' ++ R = streamBytes rs2 := ((List.cons.injEq '\n' _ c0 _).mp hR.symm).2.symm
      obtain ⟨rsA, rsB, q', hsplit, hPA, hq'R, hshape⟩ :=
        prefix_streamBytes rs2 c' R hsb
      refine Inv_onData_of_decomp parse rs rs1 rsA rsB st (c0 :: c') ['\n'] q' R
        (by rw [hrs, hsplit]) hwf hmsg ?_ (Or.inr rfl) hq'R hshape
      rw [hbuf, hc0, hPA]
      simp

/-- Folding all chunks preserves the invariant down to an empty remainder. -/
theorem Inv_run (parse : Str → Option Rec) (rs : List (Str × Rec))
    (hwf : WfStream parse rs) :
    ∀ (chunks : List Str) (st : AccSt), Inv parse rs st chunks.flatten →
      Inv parse rs (chunks.foldl (onData parse) st) [] := by
  intro chunks
  induction chunks with
  | nil => intro st h; simpa using h
  | cons c cs ih =>
    intro st h
    rw [List.foldl_cons]
    exact ih _ (Inv_step parse rs st c cs.flatten hwf (by simpa using h))

/-- At the end of a fully delivered stream the buffer is whitespace and the
message holds every fragment. -/
theorem Inv_final (parse : Str → Option Rec) (rs : List (Str × Rec)) (st : AccSt)
    (h : Inv parse rs st []) : onEnd parse st = fragsConcat rs := by
  obtain ⟨rs1, rs2, hrs, hmsg, hcase⟩ := h
  rcases hcase with ⟨w, q, hw, hbuf, hpre, hqR⟩ | ⟨-, hR⟩
  · rw [List.append_nil] at hqR
    have hq : q = [] ∧ rs2 = [] := by
      rcases hpre with hq | ⟨e, rest, hB, ⟨d, hd⟩, hne⟩
      · subst hq
        exact ⟨rfl, streamBytes_eq_nil rs2 hqR.symm⟩
      · exfalso
        rw [hB, streamBytes_cons] at hqR
        have hlen : q.length = e.1.length + 1 + (streamBytes rest).length := by
          rw [hqR]; simp; omega
        have hlen2 : q.length ≤ e.1.length := by
          rw [← hd]; simp
        omega
    rw [hq.1] at hbuf
    rw [hq.2] at hrs
    rw [List.append_nil] at hbuf hrs
    have hempty : (trim st.buf).isEmpty = true := by
      rcases hw with hw | hw
      · rw [hbuf, hw]; rfl
      · rw [hbuf, hw, trim_nl]; rfl
    unfold onEnd
    rw [hempty]
    simp [hmsg, hrs]
  · exact absurd hR.symm (List.cons_ne_nil _ _)

/-- Main run theorem: delivering any chunk split of a well-formed stream and
then firing the end handler accumulates exactly the record fragments. -/
theorem run_wf (parse : Str → Option Rec) (rs : List (Str × Rec)) (chunks : List Str)
    (hwf : WfStream parse rs) (hc : chunks.flatten = streamBytes rs) :
    runStreamEnd parse chunks = fragsConcat rs := by
  unfold runStreamEnd runChunks
  apply Inv_final
  apply Inv_run parse rs hwf
  exact ⟨[], rs, rfl, rfl,
    Or.inl ⟨[], [], Or.inl rfl, rfl, Or.inl rfl, by simpa using hc⟩⟩

theorem flatten_map_singleton (l : Str) : (l.map (fun c => [c])).flatten = l := by
  induction l with
  | nil => rfl
  | cons c cs ih => simp [ih]

/-! ### Agreement of two parse functions up to the done flag -/

theorem procLine_agree (p1 p2 : Str → Option Rec)
    (hag : ∀ s, (p1 s).map Rec.response = (p2 s).map Rec.response) :
    procLine p1 = procLine p2 := by
  funext acc l
  unfold procLine
  have h := hag l
  cases h1 : p1 l with
  | none =>
    cases h2 : p2 l with
    | none => rfl
    | some r2 => rw [h1, h2] at h; simp at h
  | some r1 =>
    cases h2 : p2 l with
    | none => rw [h1, h2] at h; simp at h
    | some r2 =>
      rw [h1, h2] at h
      simp at h
      simp [frag, h]

theorem onData_agree (p1 p2 : Str → Option Rec)
    (hag : ∀ s, (p1 s).map Rec.response = (p2 s).map Rec.response) :
    onData p1 = onData p2 := by
  funext st c
  unfold onData dataStep scanLines
  rw [procLine_agree p1 p2 hag]

theorem onEnd_agree (p1 p2 : Str → Option Rec)
    (hag : ∀ s, (p1 s).map Rec.response = (p2 s).map Rec.response) (st : AccSt) :
    onEnd p1 st = onEnd p2 st := by
  unfold onEnd
  cases hb : (trim st.buf).isEmpty with
  | true => simp
  | false =>
    simp only [Bool.false_eq_true, if_false]
    have h := hag st.buf
    cases h1 : p1 st.buf with
    | none =>
      cases h2 : p2 st.buf with
      | none => rfl
      | some r2 => rw [h1, h2] at h; simp at h
    | some r1 =>
      cases h2 : p2 st.buf with
      | none => rw [h1, h2] at h; simp at h
      | some r2 =>
        rw [h1, h2] at h
        simp at h
        simp [frag, h]

theorem runStreamEnd_agree (p1 p2 : Str → Option Rec)
    (hag : ∀ s, (p1 s).map Rec.response = (p2 s).map Rec.response) (chunks : List Str) :
    runStreamEnd p1 chunks = runStreamEnd p2 chunks := by
  unfold runStreamEnd runChunks
  rw [onData_agree p1 p2 hag]
  exact onEnd_agree p1 p2 hag _

/-! ### Claim theorems -/

/-- C1: for every sequence of byte chunks whose concatenation is a well-formed
sequence of newline-terminated JSON records, feeding the chunks to the data
handler in order and then firing the end handler yields the same accumulated
text — the concatenation of all response fields — as delivering the same bytes
under any other split, in particular as one single chunk. -/
theorem c1_chunk_boundary_independence (parse : Str → Option Rec)
    (rs : List (Str × Rec)) (cs1 cs2 : List Str)
    (hwf : WfStream parse rs)
    (h1 : cs1.flatten = streamBytes rs) (h2 : cs2.flatten = streamBytes rs) :
    runStreamEnd parse cs1 = runStreamEnd parse cs2 ∧
    runStreamEnd parse cs1 = runStreamEnd parse [streamBytes rs] ∧
    runStreamEnd parse cs1 = fragsConcat rs := by
  have e1 := run_wf parse rs cs1 hwf h1
  have e2 := run_wf parse rs cs2 hwf h2
  have e3 := run_wf parse rs [streamBytes rs] hwf (by simp)
  exact ⟨e1.trans e2.symm, e1.trans e3.symm, e1⟩

/-- Witness for C1: the three-record stream of the specification delivered
byte-by-byte and as a single chunk accumulates the same text. -/
theorem c1_chunk_boundary_independence_witness :
    runStreamEnd pc ((streamBytes rsW).map (fun c => [c])) =
      runStreamEnd pc [streamBytes rsW] ∧
    runStreamEnd pc ((streamBytes rsW).map (fun c => [c])) = ("Fix bug in parser").data := by
  have h := c1_chunk_boundary_independence pc rsW
    ((streamBytes rsW).map (fun c => [c])) [streamBytes rsW]
    (by decide) (flatten_map_singleton _) (by simp)
  refine ⟨h.2.1, ?_⟩
  rw [h.2.2]
  decide

/-- C10: the accumulator never inspects the done flag of a parsed record: two
parse functions that agree on the response projection produce identical results
on every chunk sequence, and on a well-formed stream every record's fragment —
including records arriving after one with done set to true — is accumulated, in
arrival order, with accumulation stopping only at the end event. -/
theorem c10_done_flag_not_inspected (p1 p2 : Str → Option Rec)
    (rs : List (Str × Rec)) (chunks : List Str)
    (hag : ∀ s, (p1 s).map Rec.response = (p2 s).map Rec.response)
    (hwf : WfStream p1 rs) (hc : chunks.flatten = streamBytes rs) :
    (∀ cs : List Str, runStreamEnd p1 cs = runStreamEnd p2 cs) ∧
    runStreamEnd p1 chunks = fragsConcat rs := by
  exact ⟨runStreamEnd_agree p1 p2 hag, run_wf p1 rs chunks hwf hc⟩

/-- Witness for C10: the stream whose middle record has done set to true still
accumulates the fragment of the record after it, and flipping every done flag
changes nothing. -/
theorem c10_done_flag_not_inspected_witness :
    runStreamEnd pc [streamBytes rsW] = runStreamEnd pcFlip [streamBytes rsW] ∧
    runStreamEnd pc [streamBytes rsW] = ("Fix bug in parser").data ∧
    rBug.done = true := by
  have h := c10_done_flag_not_inspected pc pcFlip rsW [streamBytes rsW]
    (fun s => by unfold pcFlip; cases pc s <;> rfl)
    (by decide) (by simp)
  refine ⟨h.1 _, ?_, by decide⟩
  rw [h.2]
  decide

/-! ### Byte accounting of the data handler (instrumentation for C2) -/

theorem scanLines_single_none (parse : Str → Option Rec) (L : Str)
    (h : parse L = none) : scanLines parse [L] = ([], 0) := by
  rw [scanLines_cons, scanLines_nil]
  unfold procLine
  rw [h]
  simp

theorem scanLines_snd_le (parse : Str → Option Rec) (ls : List Str) :
    (scanLines parse ls).2 ≤ (ls.map lineWeight).sum := by
  induction ls with
  | nil => simp [scanLines_nil]
  | cons x xs ih =>
    rw [scanLines_cons]
    have hx : (procLine parse ([], 0) x).2 ≤ lineWeight x := by
      unfold procLine lineWeight
      cases parse x <;> simp
    simp only [List.map_cons, List.sum_cons]
    omega

theorem sum_weight_filter_le (p : Str → Bool) (ls : List Str) :
    ((ls.filter p).map lineWeight).sum ≤ (ls.map lineWeight).sum := by
  induction ls with
  | nil => simp
  | cons x xs ih =>
    by_cases hx : p x
    · rw [List.filter_cons_of_pos hx]
      simp only [List.map_cons, List.sum_cons]
      omega
    · rw [List.filter_cons_of_neg (by simpa using hx)]
      simp only [List.map_cons, List.sum_cons]
      omega

theorem sum_weight_ne_nil (ls : List Str) (h : ls ≠ []) :
    (ls.map lineWeight).sum = lineWeight ls.headI + ((ls.tail).map lineWeight).sum := by
  cases ls with
  | nil => exact absurd rfl h
  | cons x xs => simp [List.headI]

theorem splitNl_weight (s : Str) : ((splitNl s).map lineWeight).sum = s.length + 1 := by
  induction s with
  | nil => simp [splitNl_nil, lineWeight]
  | cons c cs ih =>
    by_cases hc : c = '\n'
    · subst hc
      rw [splitNl_nl]
      simp only [List.map_cons, List.sum_cons, ih]
      simp [lineWeight]
      omega
    · rw [splitNl_cons_ne c cs hc]
      have hne := splitNl_ne_nil cs
      have h2 := sum_weight_ne_nil (splitNl cs) hne
      rw [List.map_cons, List.sum_cons]
      rw [h2] at ih
      unfold lineWeight at ih ⊢
      simp at ih ⊢
      omega

/-- Bound on the consumed count of one event whose final line is benign: it
never exceeds the bytes actually present. -/
theorem eventConsumed_le (parse : Str → Option Rec) (st : AccSt) (c : Str)
    (h : lastLineBenign parse (st.buf ++ c) = true) :
    eventConsumed parse st c ≤ (st.buf ++ c).length := by
  set full := st.buf ++ c with hfull
  have hne := splitNl_ne_nil full
  set ls := (splitNl full).dropLast with hls
  set L := (splitNl full).getLast hne with hL
  have hsplit : splitNl full = ls ++ [L] := (List.dropLast_append_getLast hne).symm
  have hWsum : (ls.map lineWeight).sum + (L.length + 1) = full.length + 1 := by
    have := splitNl_weight full
    rw [hsplit] at this
    simp [lineWeight] at this
    omega
  have hlast : (splitNl full).getLast? = some L := List.getLast?_eq_getLast _ hne
  unfold lastLineBenign at h
  rw [hlast] at h
  have hcand : candLines full = ls.filter (fun l => !(trim l).isEmpty) ++
      List.filter (fun l => !(trim l).isEmpty) [L] := by
    unfold candLines
    rw [hsplit, List.filter_append]
  have hkeep : List.filter (fun l => !(trim l).isEmpty) [L] =
      if (trim L).isEmpty then [] else [L] := by
    by_cases hk : (trim L).isEmpty <;> simp [List.filter_cons, hk]
  have hscanL : (scanLines parse (List.filter (fun l => !(trim l).isEmpty) [L])).2 = 0 := by
    rcases Bool.or_eq_true .. |>.mp h with h1 | h1
    · rw [hkeep, if_pos h1, scanLines_nil]
    · have hnone : parse L = none := Option.isNone_iff_eq_none.mp h1
      by_cases hk : (trim L).isEmpty
      · rw [hkeep, if_pos hk, scanLines_nil]
      · rw [hkeep, if_neg hk, scanLines_single_none parse L hnone]
  have hbound : eventConsumed parse st c ≤ (ls.map lineWeight).sum := by
    unfold eventConsumed
    rw [← hfull, hcand, scanLines_append, hscanL]
    calc (scanLines parse (ls.filter (fun l => !(trim l).isEmpty))).2 + 0
        ≤ ((ls.filter (fun l => !(trim l).isEmpty)).map lineWeight).sum := by
          simpa using scanLines_snd_le parse _
      _ ≤ (ls.map lineWeight).sum := sum_weight_filter_le _ ls
  omega

/-- The byte-accounting invariant of the counted run, provided every event
leaves its final candidate line unconsumed. -/
theorem counted_inv (parse : Str → Option Rec) (chunks : List Str) :
    ∀ (st : AccSt) (n : Nat), goodRun parse st.buf chunks = true →
    (chunks.foldl (countStep parse) (st, n)).2 +
      (chunks.foldl (countStep parse) (st, n)).1.buf.length =
      n + st.buf.length + (chunks.map List.length).sum := by
  induction chunks with
  | nil => intro st n _; simp
  | cons c cs ih =>
    intro st n hg
    have hg' : lastLineBenign parse (st.buf ++ c) = true ∧
        goodRun parse (dataStep parse (st.buf ++ c)).2 cs = true := by
      unfold goodRun at hg
      exact Bool.and_eq_true .. |>.mp hg
    have hle := eventConsumed_le parse st c hg'.1
    rw [List.length_append] at hle
    have hbuf : (onData parse st c).buf =
        (st.buf ++ c).drop (eventConsumed parse st c) := rfl
    have hbufgood : goodRun parse (onData parse st c).buf cs = true := hg'.2
    rw [List.foldl_cons]
    rw [show countStep parse (st, n) c =
      (onData parse st c, n + eventConsumed parse st c) from rfl]
    rw [ih (onData parse st c) (n + eventConsumed parse st c) hbufgood]
    rw [hbuf, List.length_drop]
    simp only [List.map_cons, List.sum_cons, List.length_append]
    omega

/-! ### Reconstruction of the split (for C3) -/

theorem joinNl_cons (l : Str) (X : List Str) (h : X ≠ []) :
    joinNl (l :: X) = l ++ '\n' :: joinNl X := by
  cases X with
  | nil => exact absurd rfl h
  | cons x xs => rfl

theorem joinNl_splitNl (s : Str) : joinNl (splitNl s) = s := by
  induction s with
  | nil => rfl
  | cons c cs ih =>
    by_cases hc : c = '\n'
    · subst hc
      rw [splitNl_nl, joinNl_cons [] (splitNl cs) (splitNl_ne_nil cs), ih]
      rfl
    · rw [splitNl_cons_ne c cs hc]
      cases hX : splitNl cs with
      | nil => exact absurd hX (splitNl_ne_nil cs)
      | cons x xs =>
        rw [hX] at ih
        cases xs with
        | nil =>
          simp only [List.headI, List.tail]
          rw [show joinNl [c :: x] = c :: x from rfl]
          rw [show joinNl [x] = x from rfl] at ih
          rw [ih]
        | cons y ys =>
          simp only [List.headI, List.tail]
          rw [joinNl_cons (c :: x) (y :: ys) (by simp),
            joinNl_cons x (y :: ys) (by simp)] at *
          rw [List.cons_append]
          rw [ih]

theorem joinNl_append_single (ls : List Str) (L : Str) (h : ls ≠ []) :
    joinNl (ls ++ [L]) = joinNl ls ++ '\n' :: L := by
  induction ls with
  | nil => exact absurd rfl h
  | cons l ls ih =>
    cases ls with
    | nil => rfl
    | cons l2 ls2 =>
      rw [List.cons_append, joinNl_cons l ((l2 :: ls2) ++ [L]) (by simp),
        ih (by simp), joinNl_cons l (l2 :: ls2) (by simp)]
      simp

/-- A split presentation `ls ++ [L]` of the buffered text exhibits `L` as a
suffix, with everything before it of the complementary length. -/
theorem split_last_suffix (s : Str) (ls : List Str) (L : Str)
    (hsplit : splitNl s = ls ++ [L]) :
    ∃ F : Str, s = F ++ L ∧ F.length + L.length = s.length := by
  have hs : joinNl (ls ++ [L]) = s := by rw [← hsplit, joinNl_splitNl]
  cases hls : ls with
  | nil =>
    rw [hls] at hs
    exact ⟨[], by simp [← hs, joinNl], by simp [← hs, joinNl]⟩
  | cons a as =>
    rw [hls] at hs
    rw [joinNl_append_single (a :: as) L (by simp)] at hs
    refine ⟨joinNl (a :: as) ++ ['\n'], by simp [← hs], ?_⟩
    have := congrArg List.length hs
    simp at this ⊢
    omega

/-- C2 counterexample: the received bytes hold exactly one record line (plus a
whitespace-only line and newlines), whose response fragment is "x"; after the
two data events the accumulated message is "xx" — the record's bytes were
consumed into a parsed record twice, because the buffer-trim removes a prefix
of the buffer equal in length to the parsed lines rather than the lines
themselves, leaving the already-parsed record in the pending buffer. -/
theorem c2_byte_conservation_counterexample :
    (runChunks pc [c2chunk, ['\n']]).msg = ("xx").data ∧
    [c2chunk, ['\n']].flatten =
      List.replicate 17 ' ' ++ '\n' :: streamBytes [(tX, rX)] ++ ['\n'] ∧
    fragsConcat [(tX, rX)] = ("x").data := by
  refine ⟨by decide, by decide, by decide⟩

/-- C2 amended: after every data event, the total bytes received equal the
cumulative processed length (each parsed line counted with one terminating
newline) plus the pending-buffer length, provided each event's final candidate
line is whitespace-only or fails to parse (i.e. is not consumed).  Without
that proviso the equation fails, and even with it a byte can be consumed into
two records when whitespace-only or unparseable lines precede a record. -/
theorem c2_amended_byte_accounting (parse : Str → Option Rec) (chunks : List Str)
    (h : goodRun parse [] chunks = true) :
    (runCounted parse chunks).2 + (runCounted parse chunks).1.buf.length =
      (chunks.map List.length).sum := by
  unfold runCounted
  have := counted_inv parse chunks { msg := [], buf := [] } 0 (by simpa using h)
  simpa using this

/-- Witness for the amended C2 on a two-chunk newline-terminated run. -/
theorem c2_amended_byte_accounting_witness :
    goodRun pc [] [tFix ++ ['\n'], tBug ++ ['\n']] = true ∧
    (runCounted pc [tFix ++ ['\n'], tBug ++ ['\n']]).2 +
      (runCounted pc [tFix ++ ['\n'], tBug ++ ['\n']]).1.buf.length =
      ([tFix ++ ['\n'], tBug ++ ['\n']].map List.length).sum :=
  ⟨by decide, c2_amended_byte_accounting pc [tFix ++ ['\n'], tBug ++ ['\n']] (by decide)⟩

/-- C3 counterexample: a data event whose buffered text is a complete record
line with no trailing newline.  The last candidate line — the remainder after
the final newline — is parsed eagerly: its fragment is appended during the
event and the pending buffer is left empty rather than retaining the line. -/
theorem c3_last_line_counterexample :
    onData pc { msg := [], buf := [] } tX = { msg := ("x").data, buf := [] } ∧
    tX.getLast? ≠ some '\n' := by
  refine ⟨by decide, by decide⟩

/-- C3 amended: the last candidate line of the buffered text is retained
unconsumed — it stays a suffix of the pending buffer and contributes nothing to
the accumulated result during the event — provided it fails JSON parsing; a
final unterminated line that parses as a complete record is consumed
immediately instead. -/
theorem c3_amended_last_line_retention (parse : Str → Option Rec) (st : AccSt)
    (c : Str) (ls : List Str) (L : Str)
    (hsplit : splitNl (st.buf ++ c) = ls ++ [L])
    (hfail : parse L = none) :
    (∃ b, (onData parse st c).buf = b ++ L) ∧
    (onData parse st c).msg =
      st.msg ++ (scanLines parse (ls.filter (fun l => !(trim l).isEmpty))).1 := by
  set full := st.buf ++ c with hfull
  obtain ⟨F, hF, hFlen⟩ := split_last_suffix full ls L hsplit
  have hWsum : (ls.map lineWeight).sum + (L.length + 1) = full.length + 1 := by
    have := splitNl_weight full
    rw [hsplit] at this
    simp [lineWeight] at this
    omega
  have hkeep : List.filter (fun l => !(trim l).isEmpty) [L] =
      if (trim L).isEmpty then [] else [L] := by
    by_cases hk : (trim L).isEmpty <;> simp [List.filter_cons, hk]
  have hscanL : scanLines parse (List.filter (fun l => !(trim l).isEmpty) [L]) = ([], 0) := by
    by_cases hk : (trim L).isEmpty
    · rw [hkeep, if_pos hk, scanLines_nil]
    · rw [hkeep, if_neg hk, scanLines_single_none parse L hfail]
  have hcand : candLines full = ls.filter (fun l => !(trim l).isEmpty) ++
      List.filter (fun l => !(trim l).isEmpty) [L] := by
    unfold candLines
    rw [hsplit, List.filter_append]
  have hscan : scanLines parse (candLines full) =
      ((scanLines parse (ls.filter (fun l => !(trim l).isEmpty))).1,
       (scanLines parse (ls.filter (fun l => !(trim l).isEmpty))).2) := by
    rw [hcand, scanLines_append, hscanL]
    simp
  have hn_le : (scanLines parse (ls.filter (fun l => !(trim l).isEmpty))).2 ≤ F.length := by
    calc (scanLines parse (ls.filter (fun l => !(trim l).isEmpty))).2
        ≤ ((ls.filter (fun l => !(trim l).isEmpty)).map lineWeight).sum :=
          scanLines_snd_le parse _
      _ ≤ (ls.map lineWeight).sum := sum_weight_filter_le _ ls
      _ ≤ F.length := by omega
  constructor
  · refine ⟨F.drop (scanLines parse (ls.filter (fun l => !(trim l).isEmpty))).2, ?_⟩
    rw [onData_buf_msg]
    simp only
    unfold dataStep
    simp only [hscan]
    rw [← hfull, hF, List.drop_append_eq_append_drop, Nat.sub_eq_zero_of_le hn_le,
      List.drop_zero]
  · rw [onData_buf_msg]
    simp only
    unfold dataStep
    simp only [hscan]

/-- Witness for the amended C3: a record line plus a partial next line; the
partial line fails to parse, survives as the buffer suffix, and only the
complete line's fragment is appended. -/
theorem c3_amended_last_line_retention_witness :
    ((∃ b, (onData pc { msg := [], buf := [] } (tFix ++ '\n' :: ("\x7b\"res").data)).buf =
      b ++ ("\x7b\"res").data) ∧
    (onData pc { msg := [], buf := [] } (tFix ++ '\n' :: ("\x7b\"res").data)).msg =
      ([] : Str) ++ (scanLines pc ([tFix].filter (fun l => !(trim l).isEmpty))).1) :=
  c3_amended_last_line_retention pc { msg := [], buf := [] }
    (tFix ++ '\n' :: ("\x7b\"res").data) [tFix] (("\x7b\"res").data)
    (by decide) (by decide)

/-! ### Cleanup: the code's substring arithmetic against the spec's wording -/

theorem jsSubstring_interior (s : Str) (h : 2 ≤ s.length) :
    jsSubstring s 1 (s.length - 1) = (s.drop 1).dropLast := by
  unfold jsSubstring
  have h1 : min 1 s.length = 1 := by omega
  have h2 : min (s.length - 1) s.length = s.length - 1 := by omega
  simp only [h1, h2]
  have h3 : min 1 (s.length - 1) = 1 := by omega
  have h4 : max 1 (s.length - 1) = s.length - 1 := by omega
  rw [h3, h4, List.drop_take, List.dropLast_eq_take, List.length_drop]

theorem jsSubstring_single (c : Char) : jsSubstring [c] 1 0 = [c] := by
  simp [jsSubstring]

/-- The coincidence making code and spec agree everywhere: on a one-character
string the JS `substring(1, 0)` swap returns the string unchanged, exactly as
if no quote pair had been found. -/
theorem stripQuotes_eq_stripOneLayer (s : Str) : stripQuotes s = stripOneLayer s := by
  unfold stripQuotes stripOneLayer
  cases s with
  | nil => simp [isQuoteWrapped, pairWrapped]
  | cons a as =>
    cases as with
    | nil =>
      have hp : ∀ q, pairWrapped [a] q = false := by
        intro q; simp [pairWrapped]
      rw [hp, hp]
      simp only [Bool.or_self, Bool.false_eq_true, if_false]
      by_cases hq : (isQuoteWrapped [a] '"' || isQuoteWrapped [a] '\'') = true
      · rw [if_pos hq]
        exact jsSubstring_single a
      · rw [if_neg hq]
    | cons b bs =>
      have hlen : 2 ≤ (a :: b :: bs).length := by simp
      have hcond : ∀ q, isQuoteWrapped (a :: b :: bs) q = pairWrapped (a :: b :: bs) q := by
        intro q
        unfold isQuoteWrapped pairWrapped
        rw [decide_eq_true hlen]
        simp
      rw [hcond, hcond]
      by_cases hq : (pairWrapped (a :: b :: bs) '"' || pairWrapped (a :: b :: bs) '\'') = true
      · rw [if_pos hq, if_pos hq, jsSubstring_interior _ hlen]
      · rw [if_neg hq, if_neg hq]

/-- C4: the cleanup step trims, strips one layer of a matching pair of straight
quotes, then strips one leading case-insensitive commit-message label and one
leading message label, re-trimming after each label strip — the code's
sequence coincides with that description on every input — and the two concrete
examples of the specification hold. -/
theorem c4_cleanup_postcondition :
    (∀ s : Str, cleanup s = cleanupSpec s) ∧
    cleanup (("\"Refactor auth module\"").data) = ("Refactor auth module").data ∧
    cleanup (("Commit Message: Add retry logic").data) = ("Add retry logic").data := by
  refine ⟨?_, by decide, by decide⟩
  intro s
  show trim (stripLabelCI mLabel (trim (stripLabelCI cmLabel (stripQuotes (trim s))))) =
    cleanupSpec s
  unfold cleanupSpec
  rw [stripQuotes_eq_stripOneLayer]

/-- C9 counterexample: on the one-character accumulated string consisting of a
double quote, quote stripping returns the quote character unchanged (JS
`substring(1, 0)` swaps its arguments), so the cleaned result is nonempty and
the request resolves with that character instead of the empty-result warning. -/
theorem c9_single_quote_counterexample :
    stripQuotes (trim ['"']) = ['"'] ∧ cleanup ['"'] = ['"'] ∧
    finishResult ['"'] = some ['"'] ∧ finishResult ['"'] ≠ none := by
  refine ⟨by decide, by decide, by decide, by decide⟩

/-- C9 amended: for an accumulated string whose trimmed form is a single
straight quote character, the quote test does succeed on that character, but
stripping returns the one-character string unchanged, so the request resolves
with the single quote character as its message, not the empty-result outcome. -/
theorem c9_amended_single_quote (s : Str) (q : Char) (hq : q = '"' ∨ q = '\'')
    (h : trim s = [q]) :
    isQuoteWrapped (trim s) q = true ∧ cleanup s = [q] ∧ finishResult s = some [q] := by
  have hclean : cleanup s = [q] := by
    unfold cleanup
    rw [h]
    rcases hq with rfl | rfl <;> decide
  refine ⟨by rw [h]; rcases hq with rfl | rfl <;> decide, hclean, ?_⟩
  rw [show finishResult s = if (cleanup s).isEmpty then none else some (cleanup s) from rfl,
    hclean]
  rcases hq with rfl | rfl <;> decide

/-- Witness for the amended C9 at the double-quote character. -/
theorem c9_amended_single_quote_witness :
    isQuoteWrapped (trim ['"']) '"' = true ∧ cleanup ['"'] = ['"'] ∧
    finishResult ['"'] = some ['"'] :=
  c9_amended_single_quote ['"'] '"' (Or.inl rfl) (by decide)

/-! ### Prompt rendering -/

theorem dollarSubst_ne_dollar (matched pre post : Str) (c : Char) (rest : Str)
    (hc : c ≠ '$') :
    dollarSubst matched pre post (c :: rest) = c :: dollarSubst matched pre post rest := by
  rw [dollarSubst.eq_def]
  split
  · simp_all
  · simp_all
  · simp_all
  · simp_all
  · simp_all
  · simp_all
  · simp_all

theorem dollarSubst_no_dollar (matched pre post rep : Str) (h : '$' ∉ rep) :
    dollarSubst matched pre post rep = rep := by
  induction rep with
  | nil => rfl
  | cons c rest ih =>
    have hc : c ≠ '$' := fun e => h (by simp [e])
    have hrest : '$' ∉ rest := fun m => h (List.mem_cons_of_mem _ m)
    rw [dollarSubst_ne_dollar matched pre post c rest hc, ih hrest]

/-- C5 counterexample: with template exactly the placeholder and the
two-character diff consisting of a dollar sign and an ampersand — shorter than
the maximum, so the claim says it appears unmodified — the rendered prompt is
the placeholder text itself, because JS replace interprets the substitution
pattern in the replacement string. -/
theorem c5_truncation_counterexample :
    finalPrompt placeholder (("$&").data) 4000 = placeholder ∧
    finalPrompt placeholder (("$&").data) 4000 ≠ ("$&").data := by
  refine ⟨by decide, by decide⟩

/-- C5 amended: for templates containing the placeholder and diffs free of the
dollar character, a diff longer than the configured maximum is rendered as its
first maximum-count characters followed by the fixed truncation marker in place
of the placeholder, and a diff within the maximum is rendered unmodified
there; a diff containing dollar substitution patterns may be transformed. -/
theorem c5_amended_truncation_rendering (template diff pre post : Str) (maxLen : Nat)
    (hsplit : splitAtFirst placeholder template = some (pre, post))
    (hnd : '$' ∉ diff) :
    (maxLen < diff.length →
      finalPrompt template diff maxLen = pre ++ (diff.take maxLen ++ truncMarker) ++ post) ∧
    (diff.length ≤ maxLen →
      finalPrompt template diff maxLen = pre ++ diff ++ post) := by
  have hndt : '$' ∉ mkTruncated diff maxLen := by
    unfold mkTruncated
    by_cases hlen : maxLen < diff.length
    · rw [if_pos hlen]
      intro hmem
      rcases List.mem_append.mp hmem with hm | hm
      · exact hnd (List.take_subset maxLen diff hm)
      · revert hm
        decide
    · rw [if_neg hlen]
      exact hnd
  have hrep : finalPrompt template diff maxLen = pre ++ mkTruncated diff maxLen ++ post := by
    unfold finalPrompt jsReplaceFirst
    rw [hsplit]
    show pre ++ dollarSubst placeholder pre post (mkTruncated diff maxLen) ++ post =
      pre ++ mkTruncated diff maxLen ++ post
    rw [dollarSubst_no_dollar _ _ _ _ hndt]
  constructor
  · intro hlen
    rw [hrep]
    unfold mkTruncated
    rw [if_pos hlen]
  · intro hlen
    rw [hrep]
    unfold mkTruncated
    rw [if_neg (by omega)]

/-- Witness for the amended C5: a concrete template with the placeholder in the
middle, exercised once with an over-long diff and once with a short one. -/
theorem c5_amended_truncation_rendering_witness :
    finalPrompt (("pre \x7bdiff\x7d post").data) (("abcdef").data) 3 =
      ("pre ").data ++ ((("abcdef").data).take 3 ++ truncMarker) ++ (" post").data ∧
    finalPrompt (("pre \x7bdiff\x7d post").data) (("ab").data) 3 =
      ("pre ").data ++ ("ab").data ++ (" post").data := by
  refine ⟨?_, ?_⟩
  · exact (c5_amended_truncation_rendering (("pre \x7bdiff\x7d post").data)
      (("abcdef").data) (("pre ").data) ((" post").data) 3 (by decide) (by decide)).1
      (by decide)
  · exact (c5_amended_truncation_rendering (("pre \x7bdiff\x7d post").data)
      (("ab").data) (("pre ").data) ((" post").data) 3 (by decide) (by decide)).2
      (by decide)

/-! ### Orchestration claims -/

/-- Reduction lemmas for the orchestration model. -/
theorem generateModel_missing (parse : Str → Option Rec) (cfg : Config) (diff : Str)
    (net : NetBehavior) (h : cfgMissing cfg = true) :
    generateModel parse cfg diff net =
      { result := .ok none, notices := [.configMissing], requested := false,
        sentPrompt := none } := by
  unfold generateModel
  rw [h]
  rfl

theorem generateModel_reqFail (parse : Str → Option Rec) (cfg : Config) (diff : Str)
    (h : cfgMissing cfg = false) :
    generateModel parse cfg diff .reqFail =
      { result := .ok none, notices := [.apiFailure], requested := true,
        sentPrompt := some (finalPrompt ((cfg.prompt).getD []) diff cfg.maxDiffLength) } := by
  unfold generateModel
  rw [h]
  rfl

theorem generateModel_errored (parse : Str → Option Rec) (cfg : Config) (diff : Str)
    (chunks : List Str) (h : cfgMissing cfg = false) :
    generateModel parse cfg diff (.streamEvents chunks .errored) =
      { result := .error (), notices := [.streamFailure], requested := true,
        sentPrompt := some (finalPrompt ((cfg.prompt).getD []) diff cfg.maxDiffLength) } := by
  unfold generateModel
  rw [h]
  rfl

theorem generateModel_ended (parse : Str → Option Rec) (cfg : Config) (diff : Str)
    (chunks : List Str) (h : cfgMissing cfg = false) :
    generateModel parse cfg diff (.streamEvents chunks .ended) =
      endedRun parse cfg diff chunks := by
  unfold generateModel
  rw [if_neg (show ¬ (cfgMissing cfg = true) by rw [h]; decide)]

theorem endedRun_of_empty (parse : Str → Option Rec) (cfg : Config) (diff : Str)
    (chunks : List Str) (h : cleanup (runStreamEnd parse chunks) = []) :
    endedRun parse cfg diff chunks =
      { result := .ok none, notices := [.emptyWarning], requested := true,
        sentPrompt := some (finalPrompt ((cfg.prompt).getD []) diff cfg.maxDiffLength) } := by
  have hfin : finishResult (runStreamEnd parse chunks) = none := by
    rw [show finishResult (runStreamEnd parse chunks) =
      if (cleanup (runStreamEnd parse chunks)).isEmpty then none
      else some (cleanup (runStreamEnd parse chunks)) from rfl, h]
    rfl
  unfold endedRun
  rw [hfin]

theorem endedRun_of_nonempty (parse : Str → Option Rec) (cfg : Config) (diff : Str)
    (chunks : List Str) (h : cleanup (runStreamEnd parse chunks) ≠ []) :
    endedRun parse cfg diff chunks =
      { result := .ok (some (cleanup (runStreamEnd parse chunks))), notices := [],
        requested := true,
        sentPrompt := some (finalPrompt ((cfg.prompt).getD []) diff cfg.maxDiffLength) } := by
  have hemp : (cleanup (runStreamEnd parse chunks)).isEmpty = false := by
    cases hcl : cleanup (runStreamEnd parse chunks) with
    | nil => exact absurd hcl h
    | cons x xs => rfl
  have hfin : finishResult (runStreamEnd parse chunks) =
      some (cleanup (runStreamEnd parse chunks)) := by
    rw [show finishResult (runStreamEnd parse chunks) =
      if (cleanup (runStreamEnd parse chunks)).isEmpty then none
      else some (cleanup (runStreamEnd parse chunks)) from rfl, hemp]
    rfl
  unfold endedRun
  rw [hfin]

theorem commandRun_fields_error (parse : Str → Option Rec) (cfg : Config) (diff : Str)
    (net : NetBehavior) (g : GenRun) (hgdef : g = generateModel parse cfg diff net)
    (hr : g.result = .error ()) :
    (commandRun parse cfg diff net).rejected = true ∧
    (commandRun parse cfg diff net).written = none ∧
    (commandRun parse cfg diff net).notices = g.notices := by
  refine ⟨?_, ?_, ?_⟩ <;> (unfold commandRun; rw [← hgdef]; simp only []; rw [hr])

theorem commandRun_fields_ok_none (parse : Str → Option Rec) (cfg : Config) (diff : Str)
    (net : NetBehavior) (g : GenRun) (hgdef : g = generateModel parse cfg diff net)
    (hr : g.result = .ok none) :
    (commandRun parse cfg diff net).rejected = false ∧
    (commandRun parse cfg diff net).written = none ∧
    (commandRun parse cfg diff net).notices = g.notices := by
  refine ⟨?_, ?_, ?_⟩ <;> (unfold commandRun; rw [← hgdef]; simp only []; rw [hr])

theorem commandRun_fields_ok_some (parse : Str → Option Rec) (cfg : Config) (diff : Str)
    (net : NetBehavior) (g : GenRun) (m : Str)
    (hgdef : g = generateModel parse cfg diff net) (hr : g.result = .ok (some m)) :
    (commandRun parse cfg diff net).rejected = false ∧
    (commandRun parse cfg diff net).written = (if m.isEmpty then none else some m) ∧
    (commandRun parse cfg diff net).notices = g.notices ++ [.generatedInfo] := by
  refine ⟨?_, ?_, ?_⟩ <;> (unfold commandRun; rw [← hgdef]; simp only []; rw [hr])

/-- C6: on a successfully completed stream, an empty cleaned accumulation makes
the request resolve to the empty-result outcome — a warning notice, no message
— and nothing is written into the commit input box; a nonempty cleaned string
is resolved and written to the box. -/
theorem c6_empty_result_dispatch (parse : Str → Option Rec) (cfg : Config) (diff : Str)
    (chunks : List Str) (hcfg : cfgMissing cfg = false) :
    (cleanup (runStreamEnd parse chunks) = [] →
      (generateModel parse cfg diff (.streamEvents chunks .ended)).result = .ok none ∧
      Notice.emptyWarning ∈
        (generateModel parse cfg diff (.streamEvents chunks .ended)).notices ∧
      (commandRun parse cfg diff (.streamEvents chunks .ended)).written = none) ∧
    (cleanup (runStreamEnd parse chunks) ≠ [] →
      (generateModel parse cfg diff (.streamEvents chunks .ended)).result =
        .ok (some (cleanup (runStreamEnd parse chunks))) ∧
      (commandRun parse cfg diff (.streamEvents chunks .ended)).written =
        some (cleanup (runStreamEnd parse chunks))) := by
  constructor
  · intro hempty
    have hg := (generateModel_ended parse cfg diff chunks hcfg).trans
      (endedRun_of_empty parse cfg diff chunks hempty)
    have hcmd := commandRun_fields_ok_none parse cfg diff
      (.streamEvents chunks .ended) _ hg.symm rfl
    exact ⟨by rw [hg], by rw [hg]; exact List.mem_cons_self _ _, hcmd.2.1⟩
  · intro hne
    have hemp : (cleanup (runStreamEnd parse chunks)).isEmpty = false := by
      cases hcl : cleanup (runStreamEnd parse chunks) with
      | nil => exact absurd hcl hne
      | cons x xs => rfl
    have hg := (generateModel_ended parse cfg diff chunks hcfg).trans
      (endedRun_of_nonempty parse cfg diff chunks hne)
    have hcmd := commandRun_fields_ok_some parse cfg diff
      (.streamEvents chunks .ended) _ (cleanup (runStreamEnd parse chunks)) hg.symm rfl
    refine ⟨by rw [hg], ?_⟩
    rw [hcmd.2.1, hemp]
    rfl

/-- Witness for C6: an empty stream triggers the warning path and writes
nothing; the three-record stream is written to the input box. -/
theorem c6_empty_result_dispatch_witness :
    ((generateModel pc cfgOk ("d").data (.streamEvents [] .ended)).result = .ok none ∧
     Notice.emptyWarning ∈
       (generateModel pc cfgOk ("d").data (.streamEvents [] .ended)).notices ∧
     (commandRun pc cfgOk ("d").data (.streamEvents [] .ended)).written = none) ∧
    ((commandRun pc cfgOk ("d").data
        (.streamEvents [streamBytes rsW] .ended)).written =
      some (cleanup (runStreamEnd pc [streamBytes rsW]))) := by
  constructor
  · exact (c6_empty_result_dispatch pc cfgOk (("d").data) [] (by decide)).1 (by decide)
  · exact ((c6_empty_result_dispatch pc cfgOk (("d").data) [streamBytes rsW]
      (by decide)).2 (by decide)).2

/-- C7 counterexample: a mid-stream transport error after headers is surfaced
as a user-visible notice, but the promise rejection escapes: the command
handler's invocation completes rejected, contradicting the claim that nothing
is rethrown past the command handler. -/
theorem c7_error_propagation_counterexample :
    (commandRun pc cfgOk ("d").data (.streamEvents [] .errored)).rejected = true ∧
    Notice.streamFailure ∈
      (commandRun pc cfgOk ("d").data (.streamEvents [] .errored)).notices := by
  have hg := generateModel_errored pc cfgOk (("d").data) [] (by decide)
  have hcmd := commandRun_fields_error pc cfgOk (("d").data)
    (.streamEvents [] .errored) _ hg.symm rfl
  refine ⟨hcmd.1, ?_⟩
  rw [hcmd.2.2]
  exact List.mem_cons_self _ _

/-- C7 amended: every failure kind produces a user-visible notice at the
boundary nearest its origin, and the command handler's invocation completes
without a rejection for config and request-phase failures; a response-stream
error, however, leaves the handler's promise rejected — that is the only
failure that escapes. -/
theorem c7_amended_error_propagation (parse : Str → Option Rec) (cfg : Config)
    (diff : Str) (net : NetBehavior) :
    (cfgMissing cfg = true →
      Notice.configMissing ∈ (commandRun parse cfg diff net).notices ∧
      (commandRun parse cfg diff net).rejected = false) ∧
    (cfgMissing cfg = false → net = .reqFail →
      Notice.apiFailure ∈ (commandRun parse cfg diff net).notices ∧
      (commandRun parse cfg diff net).rejected = false) ∧
    (∀ chunks, cfgMissing cfg = false → net = .streamEvents chunks .errored →
      Notice.streamFailure ∈ (commandRun parse cfg diff net).notices ∧
      (commandRun parse cfg diff net).rejected = true) ∧
    ((commandRun parse cfg diff net).rejected = true ↔
      (cfgMissing cfg = false ∧ ∃ chunks, net = .streamEvents chunks .errored)) := by
  cases hcfg : cfgMissing cfg with
  | true =>
    have hcmd := commandRun_fields_ok_none parse cfg diff net _
      (generateModel_missing parse cfg diff net hcfg).symm rfl
    have hmem : Notice.configMissing ∈ (commandRun parse cfg diff net).notices := by
      rw [hcmd.2.2]
      exact List.mem_cons_self _ _
    refine ⟨fun _ => ⟨hmem, hcmd.1⟩, ?_, ?_, ?_⟩
    · intro h
      exact absurd h (by decide)
    · intro chunks h
      exact absurd h (by decide)
    · rw [hcmd.1]
      constructor
      · intro h
        exact absurd h (by decide)
      · rintro ⟨h, -⟩
        exact absurd h (by decide)
  | false =>
    refine ⟨?_, ?_, ?_, ?_⟩
    · intro h
      exact absurd h (by decide)
    · rintro - rfl
      have hcmd := commandRun_fields_ok_none parse cfg diff .reqFail _
        (generateModel_reqFail parse cfg diff hcfg).symm rfl
      refine ⟨?_, hcmd.1⟩
      rw [hcmd.2.2]
      exact List.mem_cons_self _ _
    · rintro chunks - rfl
      have hcmd := commandRun_fields_error parse cfg diff
        (.streamEvents chunks .errored) _
        (generateModel_errored parse cfg diff chunks hcfg).symm rfl
      refine ⟨?_, hcmd.1⟩
      rw [hcmd.2.2]
      exact List.mem_cons_self _ _
    · cases net with
      | reqFail =>
        have hcmd := commandRun_fields_ok_none parse cfg diff .reqFail _
          (generateModel_reqFail parse cfg diff hcfg).symm rfl
        rw [hcmd.1]
        constructor
        · intro h
          exact absurd h (by decide)
        · rintro ⟨-, chunks, h⟩
          cases h
      | streamEvents chunks term =>
        cases term with
        | ended =>
          have hrej : (commandRun parse cfg diff
              (.streamEvents chunks .ended)).rejected = false := by
            by_cases hempty : cleanup (runStreamEnd parse chunks) = []
            · have hg := (generateModel_ended parse cfg diff chunks hcfg).trans
                (endedRun_of_empty parse cfg diff chunks hempty)
              exact (commandRun_fields_ok_none parse cfg diff _ _ hg.symm rfl).1
            · have hg := (generateModel_ended parse cfg diff chunks hcfg).trans
                (endedRun_of_nonempty parse cfg diff chunks hempty)
              exact (commandRun_fields_ok_some parse cfg diff _ _
                (cleanup (runStreamEnd parse chunks)) hg.symm rfl).1
          rw [hrej]
          constructor
          · intro h
            exact absurd h (by decide)
          · rintro ⟨-, chunks2, h⟩
            cases h
        | errored =>
          have hcmd := commandRun_fields_error parse cfg diff
            (.streamEvents chunks .errored) _
            (generateModel_errored parse cfg diff chunks hcfg).symm rfl
          rw [hcmd.1]
          exact ⟨fun _ => ⟨rfl, chunks, rfl⟩, fun _ => rfl⟩

/-- Witness for the amended C7: the three failure kinds exercised concretely. -/
theorem c7_amended_error_propagation_witness :
    (Notice.configMissing ∈ (commandRun pc cfgNoUrl ("d").data .reqFail).notices ∧
     (commandRun pc cfgNoUrl ("d").data .reqFail).rejected = false) ∧
    (Notice.apiFailure ∈ (commandRun pc cfgOk ("d").data .reqFail).notices ∧
     (commandRun pc cfgOk ("d").data .reqFail).rejected = false) ∧
    (Notice.streamFailure ∈
       (commandRun pc cfgOk ("d").data (.streamEvents [] .errored)).notices ∧
     (commandRun pc cfgOk ("d").data (.streamEvents [] .errored)).rejected = true) := by
  refine ⟨?_, ?_, ?_⟩
  · exact (c7_amended_error_propagation pc cfgNoUrl (("d").data) .reqFail).1 (by decide)
  · exact (c7_amended_error_propagation pc cfgOk (("d").data) .reqFail).2.1 (by decide) rfl
  · exact (c7_amended_error_propagation pc cfgOk (("d").data)
      (.streamEvents [] .errored)).2.2.1 [] (by decide) rfl

/-- C8: when any of the required settings apiUrl, model or prompt is absent,
generation shows the configuration error notice and returns the no-message
outcome without issuing any HTTP request; a request is only issued when all
three are present. -/
theorem c8_config_missing_precondition (parse : Str → Option Rec) (cfg : Config)
    (diff : Str) (net : NetBehavior) :
    ((cfg.apiUrl = none ∨ cfg.model = none ∨ cfg.prompt = none) →
      (generateModel parse cfg diff net).result = .ok none ∧
      (generateModel parse cfg diff net).notices = [.configMissing] ∧
      (generateModel parse cfg diff net).requested = false) ∧
    ((generateModel parse cfg diff net).requested = true →
      cfg.apiUrl ≠ none ∧ cfg.model ≠ none ∧ cfg.prompt ≠ none) := by
  constructor
  · intro h
    have hcfg : cfgMissing cfg = true := by
      unfold cfgMissing
      rcases h with h | h | h <;> rw [h] <;> simp [isFalsyStr]
    have hgen := generateModel_missing parse cfg diff net hcfg
    exact ⟨by rw [hgen], by rw [hgen], by rw [hgen]⟩
  · intro hreq
    have hcfg : cfgMissing cfg = false := by
      cases hh : cfgMissing cfg with
      | false => rfl
      | true =>
        rw [generateModel_missing parse cfg diff net hh] at hreq
        exact absurd hreq (by decide)
    unfold cfgMissing at hcfg
    refine ⟨?_, ?_, ?_⟩ <;> intro hnone <;> rw [hnone] at hcfg <;>
      simp [isFalsyStr] at hcfg

/-- Witness for C8: a configuration with the URL absent takes the error path
without a request, and the full configuration issues one. -/
theorem c8_config_missing_precondition_witness :
    ((generateModel pc cfgNoUrl ("d").data .reqFail).result = .ok none ∧
     (generateModel pc cfgNoUrl ("d").data .reqFail).notices = [.configMissing] ∧
     (generateModel pc cfgNoUrl ("d").data .reqFail).requested = false) ∧
    (cfgOk.apiUrl ≠ none ∧ cfgOk.model ≠ none ∧ cfgOk.prompt ≠ none) := by
  constructor
  · exact (c8_config_missing_precondition pc cfgNoUrl (("d").data) .reqFail).1 (Or.inl rfl)
  · exact (c8_config_missing_precondition pc cfgOk (("d").data) .reqFail).2 (by decide)

end OllamaCommit
